import Mathlib

/-!
Verification development for the metrics engine of the Rankify repository
(`rankify/metrics/metrics.py`).  The Python source is shallowly embedded:
pure functions become Lean functions on `List Char` / `String` / `ℚ`,
fallible code (Python exceptions such as `ZeroDivisionError` and
`ValueError`) returns `Option`.
-/

/-! ### Character classes

`normalize_answer` works on strings.  `remove_punctuation` keeps exactly the
characters matching `[a-z0-9 ]`; the regex `\b(a|an|the)\b` uses Python's
word-character class `\w` (ASCII range `[a-zA-Z0-9_]`; the spec fixes
ASCII-range semantics, and every string reaching `remove_articles` inside
`normalize_answer` consists of `[a-z0-9 ]` only). -/

/-- Characters kept by `remove_punctuation` (the regex class `[a-z0-9 ]`). -/
def isKept (c : Char) : Bool :=
  ('a' ≤ c && c ≤ 'z') || ('0' ≤ c && c ≤ '9') || c = ' '

/-- Python regex word characters `\w`, ASCII range. -/
def isWordChar (c : Char) : Bool :=
  ('a' ≤ c && c ≤ 'z') || ('A' ≤ c && c ≤ 'Z') || ('0' ≤ c && c ≤ '9') || c = '_'

/-- Lower-case ASCII letters and digits: the non-space characters kept by
`remove_punctuation`. -/
def isLowerAN (c : Char) : Bool :=
  ('a' ≤ c && c ≤ 'z') || ('0' ≤ c && c ≤ '9')

/-- ASCII whitespace recognised by Python's `str.split()`. -/
def isPySpace (c : Char) : Bool :=
  c = ' ' || c = '\t' || c = '\n' || c = '\x0b' || c = '\x0c' || c = '\r'

/-- A word boundary `\b` holds between the end of a matched article and the
following characters iff the next character is absent or not a word
character (the article itself ends in a word character). -/
def boundaryAfter : List Char → Bool
  | [] => true
  | c :: _ => !(isWordChar c)

/-! ### `normalize_answer` -/

/-- `text.lower()`; ASCII-range case folding (per the spec, locale-aware
Unicode folding is out of scope; non-ASCII characters are removed by
`remove_punctuation` immediately afterwards). -/
def lowerChars (l : List Char) : List Char := l.map Char.toLower

/-- `re.sub(r'[^a-z0-9 ]', '', text)`. -/
def removePunct (l : List Char) : List Char := l.filter isKept

/-- Scanner for `re.sub(r'\b(a|an|the)\b', ' ', text)`.

The boolean state records whether the previous character of the *original*
string is a word character; a match can only start when it is not (the
articles begin with word characters, so `\b` requires a word/non-word
transition there).  `re.sub` scans left to right; at each position the
alternatives `a`, `an`, `the` are tried in order, each requiring `\b`
after the match; on success the match is replaced by one space and the
scan resumes after it, otherwise the scan advances one character.  The
cases are split on the length of the remaining input so that every
recursive call is structural.  (The alternative `a` in front of `n…` and
`an` in front of a further word character never match, because the
following word character forbids the closing `\b`; those dead tests are
omitted.) -/
def removeArticlesAux : Bool → List Char → List Char
  | _, [] => []
  | true, c :: rest => c :: removeArticlesAux (isWordChar c) rest
  | false, [c] =>
      -- at the last character, `\b` holds after it; only `a` can match
      if c = 'a' then [' '] else [c]
  | false, [c, c₂] =>
      if c = 'a' && !(isWordChar c₂) then
        ' ' :: removeArticlesAux true [c₂]
      else if c = 'a' && c₂ = 'n' then
        -- `an` at the very end of the input
        [' ']
      else
        c :: removeArticlesAux (isWordChar c) [c₂]
  | false, c :: c₂ :: c₃ :: rest₃ =>
      if c = 'a' && !(isWordChar c₂) then
        ' ' :: removeArticlesAux true (c₂ :: c₃ :: rest₃)
      else if c = 'a' && c₂ = 'n' && !(isWordChar c₃) then
        ' ' :: removeArticlesAux true (c₃ :: rest₃)
      else if c = 't' && c₂ = 'h' && c₃ = 'e' && boundaryAfter rest₃ then
        ' ' :: removeArticlesAux true rest₃
      else
        c :: removeArticlesAux (isWordChar c) (c₂ :: c₃ :: rest₃)

/-- `re.sub(r'\b(a|an|the)\b', ' ', text)`: at the start of the string a
match may begin (no preceding word character). -/
def removeArticles (l : List Char) : List Char := removeArticlesAux false l

/-- One right fold pass of `str.split()`: the head of the accumulator is the
word currently being assembled (possibly empty); a whitespace character
closes it. -/
def wordsCore (l : List Char) : List (List Char) :=
  l.foldr
    (fun c acc =>
      if isPySpace c then [] :: acc
      else (c :: acc.headD []) :: acc.tail)
    [[]]

/-- `text.split()`: maximal runs of non-whitespace characters. -/
def wordsSp (l : List Char) : List (List Char) :=
  (wordsCore l).filter (fun w => decide (w ≠ []))

/-- `' '.join(ws)` on token lists. -/
def interWords : List (List Char) → List Char
  | [] => []
  | [w] => w
  | w :: ws => w ++ ' ' :: interWords ws

/-- `' '.join(text.split())`. -/
def whiteSpaceFix (l : List Char) : List Char := interWords (wordsSp l)

/-- The body of `normalize_answer`, on character lists:
`white_space_fix(remove_articles(remove_punctuation(s.lower())))`. -/
def normalizeChars (l : List Char) : List Char :=
  whiteSpaceFix (removeArticles (removePunct (lowerChars l)))

/-- `normalize_answer(s)` (rankify/metrics/metrics.py, lines 9–28). -/
def normalize_answer (s : String) : String := ⟨normalizeChars s.data⟩

/-- The three words removed by `remove_articles`. -/
def isArticle (w : List Char) : Bool :=
  w = ['a'] || w = ['a', 'n'] || w = ['t', 'h', 'e']

/-! ### Data model (spec §3; `metrics.py` consumes these fields)

`Answer` wraps the list of ground-truth strings (`doc.answers.answers`).
A `Context` carries the precomputed `has_answer` flag (the only field the
metrics engine reads).  `reorder_contexts` is `None`-or-list in Python and
is only ever used through its truthiness, so an absent value is modelled
as the empty list. -/

structure Answer where
  answers : List String
deriving DecidableEq

structure Context where
  has_answer : Bool
deriving DecidableEq

structure Document where
  contexts : List Context
  reorder_contexts : List Context
  answers : Answer
deriving DecidableEq

/-- The ad-hoc `Data` object the facade builds:
`type("Data", (object,), {"documents": ..., "predictions": ...})()`. -/
structure Data where
  documents : List Document
  predictions : List String
deriving DecidableEq

/-- `BaseMetric.get_dataset_answer`: `[doc.answers.answers for doc in data.documents]`. -/
def get_dataset_answer (data : Data) : List (List String) :=
  data.documents.map (fun doc => doc.answers.answers)

/-! ### Token-overlap scorers -/

/-- `normalize_answer(s).split()`: the token list used by the F1-family
scorers. -/
def getTokens (s : String) : List (List Char) :=
  wordsSp (normalize_answer s).data

/-- Python division, which raises `ZeroDivisionError` on a zero
denominator. -/
def qdiv (a b : ℚ) : Option ℚ := if b = 0 then none else some (a / b)

/-- `ExactMatch.calculate_em`: 1.0 on the first normalized reference equal
to the normalized prediction, else 0.0. -/
def calculate_em (prediction : String) (golden_answers : List String) : ℚ :=
  if golden_answers.any (fun answer => normalize_answer answer = normalize_answer prediction)
  then 1 else 0

/-- Python's substring test `needle in hay`: `needle` occurs contiguously
in `hay` (the empty string is a substring of everything). -/
def isSubstring (needle : List Char) : List Char → Bool
  | [] => needle.isEmpty
  | c :: rest => needle.isPrefixOf (c :: rest) || isSubstring needle rest

/-- `ContainsMatch.calculate_contains`: 1.0 on the first normalized
reference that is a contiguous substring of the normalized prediction,
else 0.0. -/
def calculate_contains (prediction : String) (golden_answers : List String) : ℚ :=
  if golden_answers.any
      (fun answer => isSubstring (normalize_answer answer).data (normalize_answer prediction).data)
  then 1 else 0

/-- The mutable `final_metric` dictionary of `token_level_scores`. -/
structure TokenScores where
  f1 : ℚ
  precision : ℚ
  «recall» : ℚ
deriving DecidableEq

/-- One iteration of the `token_level_scores` loop (lines 151–166): a
reference with `num_same == 0` is skipped (`continue`), otherwise the
three scores are computed and folded into the running maxima.  The Python
divisions can raise, hence the `Option`. -/
def tokenStep (prediction : String) (final_metric : TokenScores) (ground_truth : String) :
    Option TokenScores :=
  let pred_tokens := getTokens prediction
  let truth_tokens := getTokens ground_truth
  let num_same := (pred_tokens.bagInter truth_tokens).length
  if num_same = 0 then some final_metric
  else do
    let precision ← qdiv (num_same : ℚ) (pred_tokens.length : ℚ)
    let rec_ ← qdiv (num_same : ℚ) (truth_tokens.length : ℚ)
    let f1 ← qdiv (2 * precision * rec_) (precision + rec_)
    some { f1 := max f1 final_metric.f1
           precision := max precision final_metric.precision
           «recall» := max rec_ final_metric.«recall» }

/-- `F1Score.token_level_scores` (lines 139–168).  `Counter(pred) &
Counter(truth)` is the count-aware multiset intersection, embedded as
`List.bagInter` (`num_same` only depends on the counts). -/
def token_level_scores (prediction : String) (ground_truths : List String) :
    Option TokenScores :=
  ground_truths.foldlM (tokenStep prediction) { f1 := 0, precision := 0, «recall» := 0 }

/-- A Python list comprehension whose element expression may raise:
elements are produced left to right and the first exception aborts the
whole list. -/
def mapOption {α β : Type} (f : α → Option β) : List α → Option (List β)
  | [] => some []
  | x :: xs => do
      let y ← f x
      let ys ← mapOption f xs
      some (y :: ys)

/-! Spec-side per-reference scores (§4.2 of the spec, for the refinement
statement of claim C5): a reference with `num_same = 0` contributes 0 to
all three scores; otherwise `precision = num_same/len(pred_tokens)`,
`recall = num_same/len(ref_tokens)`, `f1 = 2pr/(p+r)`. -/

/-- `num_same` for one prediction/reference pair. -/
def num_same_of (prediction ground_truth : String) : ℕ :=
  ((getTokens prediction).bagInter (getTokens ground_truth)).length

/-- Spec-side per-reference precision. -/
def specRefPrecision (prediction ground_truth : String) : ℚ :=
  if num_same_of prediction ground_truth = 0 then 0
  else (num_same_of prediction ground_truth : ℚ) / ((getTokens prediction).length : ℚ)

/-- Spec-side per-reference recall. -/
def specRefRecall (prediction ground_truth : String) : ℚ :=
  if num_same_of prediction ground_truth = 0 then 0
  else (num_same_of prediction ground_truth : ℚ) / ((getTokens ground_truth).length : ℚ)

/-- Spec-side per-reference F1. -/
def specRefF1 (prediction ground_truth : String) : ℚ :=
  if num_same_of prediction ground_truth = 0 then 0
  else 2 * specRefPrecision prediction ground_truth * specRefRecall prediction ground_truth /
    (specRefPrecision prediction ground_truth + specRefRecall prediction ground_truth)

/-! ### Per-scorer `calculate_metric` (aggregate mean × 100)

Each scorer zips predictions with the per-document answers, averages the
per-instance scores and returns `{name: mean*100}` plus the per-instance
list.  `sum(...) / len(...)` raises `ZeroDivisionError` on an empty list,
hence the `Option`.  The aggregate dictionary is modelled as an
association list. -/

namespace ExactMatch

/-- `ExactMatch.calculate_metric` (lines 108–128). -/
def calculate_metric (data : Data) : Option (List (String × ℚ) × List ℚ) :=
  let pred_list := data.predictions
  let golden_answers_list := get_dataset_answer data
  let metric_score_list :=
    (pred_list.zip golden_answers_list).map (fun pg => calculate_em pg.1 pg.2)
  if metric_score_list.length = 0 then none
  else some ([(("exact_match"), metric_score_list.sum / (metric_score_list.length : ℚ) * 100)],
    metric_score_list)

end ExactMatch

namespace F1Score

/-- `F1Score.calculate_metric` (lines 170–180). -/
def calculate_metric (data : Data) : Option (List (String × ℚ) × List ℚ) := do
  let pred_list := data.predictions
  let golden_answers_list := get_dataset_answer data
  let metric_score_list ←
    mapOption (fun pg => (token_level_scores pg.1 pg.2).map TokenScores.f1)
      (pred_list.zip golden_answers_list)
  if metric_score_list.length = 0 then none
  else some ([(("f1_score"), metric_score_list.sum / (metric_score_list.length : ℚ) * 100)],
    metric_score_list)

end F1Score

namespace PrecisionScore

/-- `PrecisionScore.calculate_metric` (lines 191–201). -/
def calculate_metric (data : Data) : Option (List (String × ℚ) × List ℚ) := do
  let pred_list := data.predictions
  let golden_answers_list := get_dataset_answer data
  let metric_score_list ←
    mapOption (fun pg => (token_level_scores pg.1 pg.2).map TokenScores.precision)
      (pred_list.zip golden_answers_list)
  if metric_score_list.length = 0 then none
  else some ([(("precision"), metric_score_list.sum / (metric_score_list.length : ℚ) * 100)],
    metric_score_list)

end PrecisionScore

namespace RecallScore

/-- `RecallScore.calculate_metric` (lines 212–222). -/
def calculate_metric (data : Data) : Option (List (String × ℚ) × List ℚ) := do
  let pred_list := data.predictions
  let golden_answers_list := get_dataset_answer data
  let metric_score_list ←
    mapOption (fun pg => (token_level_scores pg.1 pg.2).map TokenScores.«recall»)
      (pred_list.zip golden_answers_list)
  if metric_score_list.length = 0 then none
  else some ([(("recall"), metric_score_list.sum / (metric_score_list.length : ℚ) * 100)],
    metric_score_list)

end RecallScore

namespace ContainsMatch

/-- `ContainsMatch.calculate_metric` (lines 239–249). -/
def calculate_metric (data : Data) : Option (List (String × ℚ) × List ℚ) :=
  let pred_list := data.predictions
  let golden_answers_list := get_dataset_answer data
  let metric_score_list :=
    (pred_list.zip golden_answers_list).map (fun pg => calculate_contains pg.1 pg.2)
  if metric_score_list.length = 0 then none
  else some ([(("contains_match"), metric_score_list.sum / (metric_score_list.length : ℚ) * 100)],
    metric_score_list)

end ContainsMatch

/-! ### `Metrics` facade -/

/-- The loop body of `Metrics.top_k_accuracy` (lines 396–413): accumulate
`(hits, total)` over the documents. -/
def topKLoop (k : ℕ) (use_reordered : Bool) : List Document → ℕ × ℕ → ℕ × ℕ
  | [], acc => acc
  | document :: ds, (hits, total) =>
      let contexts_to_use :=
        if use_reordered && !document.reorder_contexts.isEmpty
        then document.reorder_contexts else document.contexts
      topKLoop k use_reordered ds
        (hits + (if (contexts_to_use.take k).any (fun context => context.has_answer) then 1 else 0),
         total + 1)

/-- `Metrics.top_k_accuracy`: `(hits / total) * 100 if total > 0 else 0`.
The Python `self.documents` is passed explicitly. -/
def top_k_accuracy (documents : List Document) (k : ℕ) (use_reordered : Bool) : ℚ :=
  let ht := topKLoop k use_reordered documents (0, 0)
  if 0 < ht.2 then ((ht.1 : ℚ) / (ht.2 : ℚ)) * 100 else 0

/-- The context list `contexts_to_use` selected for one document
(`document.reorder_contexts if (use_reordered and document.reorder_contexts)
else document.contexts`; Python truthiness of a list is non-emptiness). -/
def selectedContexts (document : Document) (use_reordered : Bool) : List Context :=
  if use_reordered && !document.reorder_contexts.isEmpty
  then document.reorder_contexts else document.contexts

/-- `Metrics.calculate_generation_metrics` (lines 431–450): build the
`Data` bundle, run the five generation scorers in order, and merge their
aggregate dictionaries (`results.update(score)`; the keys are pairwise
distinct, so the merge is concatenation).  Any scorer failure aborts the
whole computation. -/
def calculate_generation_metrics (documents : List Document) (predictions : List String) :
    Option (List (String × ℚ)) := do
  let data : Data := { documents := documents, predictions := predictions }
  let em ← ExactMatch.calculate_metric data
  let f1 ← F1Score.calculate_metric data
  let pr ← PrecisionScore.calculate_metric data
  let rc ← RecallScore.calculate_metric data
  let cm ← ContainsMatch.calculate_metric data
  some (em.1 ++ f1.1 ++ pr.1 ++ rc.1 ++ cm.1)

/-! ### BLEU -/

/-- The configuration dictionary as read by `BLEUScore.__init__`:
`config.get("bleu_max_order", 4)` and `config.get("bleu_smooth", False)`.
Absent keys are `none`.  `bleu_max_order` is an integer (Python ints may
be negative). -/
structure BLEUConfig where
  bleu_max_order : Option ℤ
  bleu_smooth : Option Bool
deriving DecidableEq

/-- The state a constructed `BLEUScore` instance carries. -/
structure BLEUScoreState where
  max_order : ℤ
  smooth : Bool
deriving DecidableEq

/-- `BLEUScore.__init__` (lines 275–286): reads the two options with their
defaults and performs no validation whatsoever. -/
def BLEUScore_init (config : BLEUConfig) : BLEUScoreState :=
  { max_order := config.bleu_max_order.getD 4
    smooth := config.bleu_smooth.getD false }

/-- `BLEUScore._get_ngrams(segment, max_order)`: every contiguous window of
each order `1..max_order`, as a multiset (represented by the listing of
all windows; Python's `Counter` only exposes the counts).  `range(0,
len(segment) - order + 1)` is empty when the bound is non-positive, as is
`List.range (segment.length - om)` (with `order = om + 1`). -/
def get_ngrams (segment : List String) (max_order : ℕ) : List (List String) :=
  (List.range max_order).flatMap
    (fun om => (List.range (segment.length - om)).map
      (fun i => (segment.drop i).take (om + 1)))

/-- `Counter.__or__`: per-key maximum of counts.
`count x (l₁ ++ l₂.diff l₁) = max (count x l₁) (count x l₂)`. -/
def counterUnion (l₁ l₂ : List (List String)) : List (List String) :=
  l₁ ++ l₂.diff l₁

/-- The merged reference n-gram counts of one instance:
`merged_ref_ngram_counts |= self._get_ngrams(reference, self.max_order)`
starting from an empty `Counter`. -/
def mergedRefNgrams (references : List (List String)) (max_order : ℕ) :
    List (List String) :=
  references.foldl (fun acc reference => counterUnion acc (get_ngrams reference max_order)) []

/-- The clipped-match counts of one instance:
`overlap = translation_ngram_counts & merged_ref_ngram_counts`
(`Counter.__and__` = per-key minimum = `List.bagInter`). -/
def instanceOverlap (references : List (List String)) (translation : List String)
    (max_order : ℕ) : List (List String) :=
  (get_ngrams translation max_order).bagInter (mergedRefNgrams references max_order)

/-- `matches_by_order[order - 1]` after the corpus pass: each n-gram of
that order contributes its clipped count. -/
def matchesByOrder (max_order : ℕ)
    (corpus : List (List (List String) × List String)) (order : ℕ) : ℕ :=
  (corpus.map (fun rt =>
    ((instanceOverlap rt.1 rt.2 max_order).filter (fun g => g.length = order)).length)).sum

/-- `possible_matches_by_order[order - 1]` after the corpus pass: each
instance adds `len(translation) - order + 1` when positive (in ℕ,
`len + 1 - order` truncates at 0 exactly like the Python guard). -/
def possibleByOrder (corpus : List (List (List String) × List String)) (order : ℕ) : ℕ :=
  (corpus.map (fun rt => rt.2.length + 1 - order)).sum

/-- The `precisions` list (lines 322–327).  Index `i` holds order `i+1`. -/
def bleuPrecisions (max_order : ℕ) (smooth : Bool)
    (corpus : List (List (List String) × List String)) : List ℚ :=
  (List.range max_order).map (fun i =>
    let order := i + 1
    if smooth then
      ((matchesByOrder max_order corpus order : ℚ) + 1) /
        ((possibleByOrder corpus order : ℚ) + 1)
    else if 0 < possibleByOrder corpus order then
      (matchesByOrder max_order corpus order : ℚ) / (possibleByOrder corpus order : ℚ)
    else 0)

/-- Python's `min(xs)`, which raises `ValueError` on an empty sequence. -/
def listMin : List ℚ → Option ℚ
  | [] => none
  | x :: xs => some (xs.foldl min x)

/-- `BLEUScore.compute_bleu` (lines 288–330).  The corpus loop raises
`ValueError` at `min(len(r) for r in references)` when some zipped
instance has an empty reference set; `min(precisions)` raises when
`max_order ≤ 0` leaves `precisions` empty; both abort the computation
(`none`).  Otherwise `bleu = exp(sum(log(p))/max_order)` when every
precision is positive, else `0.0`.  (`reference_length` and
`translation_length` are accumulated but never used — there is no brevity
penalty.) -/
noncomputable def compute_bleu (self : BLEUScoreState)
    (reference_corpus : List (List (List String)))
    (translation_corpus : List (List String)) : Option ℝ :=
  let corpus := reference_corpus.zip translation_corpus
  if corpus.any (fun rt => rt.1.isEmpty) then none
  else
    let precisions := bleuPrecisions self.max_order.toNat self.smooth corpus
    match listMin precisions with
    | none => none
    | some m =>
        if 0 < m then
          some (Real.exp ((precisions.map (fun p => Real.log (Rat.cast p))).sum /
            (self.max_order : ℝ)))
        else some 0

/-! ## Theorems

### Character-class facts -/

-- sanity checks (spec §8): definitional evaluations of the embedding
example : normalize_answer ("the quick, brown fox!") = ("quick brown fox") := by decide
example : normalize_answer ("A Cat SAT.") = normalize_answer ("a cat sat") := by decide
example : normalize_answer ("the") = ("") := by decide
example : normalize_answer ("than a2 an") = ("than a2") := by decide
example : calculate_em ("Paris") [("paris"), ("France")] = 1 := by
  rw [calculate_em, if_pos (by decide)]
example : calculate_em ("Lyon") [("paris"), ("France")] = 0 := by
  rw [calculate_em, if_neg (by decide)]
example : calculate_contains ("The capital is paris, france") [("Paris")] = 1 := by
  rw [calculate_contains, if_pos (by decide)]

theorem isLowerAN_toLower {c : Char} (h : isLowerAN c = true) : Char.toLower c = c := by
  simp only [isLowerAN, Bool.or_eq_true, Bool.and_eq_true, decide_eq_true_eq] at h
  unfold Char.toLower
  have : ¬(Char.toNat c ≥ 65 ∧ Char.toNat c ≤ 90) := by
    have e1 : ('a').val.toBitVec.toNat = 97 := rfl
    have e2 : ('z').val.toBitVec.toNat = 122 := rfl
    have e3 : ('0').val.toBitVec.toNat = 48 := rfl
    have e4 : ('9').val.toBitVec.toNat = 57 := rfl
    rcases h with ⟨h1, h2⟩ | ⟨h1, h2⟩ <;>
    · rw [Char.le_def, UInt32.le_def, BitVec.le_def] at h1 h2
      simp only [Char.toNat, UInt32.toNat] at *
      omega
  simp [this]

theorem isLowerAN_isWordChar {c : Char} (h : isLowerAN c = true) : isWordChar c = true := by
  simp only [isLowerAN, Bool.or_eq_true] at h
  simp only [isWordChar, Bool.or_eq_true]
  tauto

theorem isLowerAN_not_space {c : Char} (h : isLowerAN c = true) : isPySpace c = false := by
  cases hs : isPySpace c
  · rfl
  · exfalso
    simp only [isPySpace, Bool.or_eq_true, decide_eq_true_eq] at hs
    rcases hs with ((((rfl | rfl) | rfl) | rfl) | rfl) | rfl <;> exact absurd h (by decide)

theorem isLowerAN_isKept {c : Char} (h : isLowerAN c = true) : isKept c = true := by
  simp only [isLowerAN, Bool.or_eq_true] at h
  simp only [isKept, Bool.or_eq_true]
  tauto

theorem isKept_class {c : Char} (h : isKept c = true) : c = ' ' ∨ isLowerAN c = true := by
  simp only [isKept, Bool.or_eq_true, decide_eq_true_eq] at h
  simp only [isLowerAN, Bool.or_eq_true]
  tauto

/-! ### `wordsCore` / `wordsSp` (`str.split()`) -/

theorem wordsCore_nil : wordsCore [] = [[]] := rfl

theorem wordsCore_cons (c : Char) (l : List Char) :
    wordsCore (c :: l) =
      if isPySpace c then [] :: wordsCore l
      else (c :: (wordsCore l).headD []) :: (wordsCore l).tail := rfl

theorem wordsCore_ne_nil (l : List Char) : wordsCore l ≠ [] := by
  induction l with
  | nil => simp [wordsCore_nil]
  | cons c l ih =>
      rw [wordsCore_cons]
      split <;> simp

theorem wordsCore_append_word {w : List Char} (l : List Char)
    (hw : ∀ c ∈ w, isPySpace c = false) :
    wordsCore (w ++ l) = (w ++ (wordsCore l).headD []) :: (wordsCore l).tail := by
  induction w with
  | nil =>
      obtain ⟨h, t, he⟩ : ∃ h t, wordsCore l = h :: t := by
        rcases hc : wordsCore l with _ | ⟨h, t⟩
        · exact absurd hc (wordsCore_ne_nil l)
        · exact ⟨h, t, rfl⟩
      simp [he]
  | cons c w ih =>
      have hc : isPySpace c = false := hw c (by simp)
      have ih' := ih (fun x hx => hw x (by simp [hx]))
      simp only [List.cons_append, wordsCore_cons, hc, if_neg (by simp [hc] : ¬(isPySpace c = true)), ih']
      simp

theorem wordsSp_nil : wordsSp [] = [] := rfl

theorem wordsSp_cons_space {c : Char} (l : List Char) (hc : isPySpace c = true) :
    wordsSp (c :: l) = wordsSp l := by
  simp [wordsSp, wordsCore_cons, hc]

theorem wordsSp_append_word_cons {w : List Char} (r : List Char)
    (hw : ∀ c ∈ w, isPySpace c = false) (hne : w ≠ []) :
    wordsSp (w ++ ' ' :: r) = w :: wordsSp r := by
  have hsp : isPySpace ' ' = true := by decide
  rw [wordsSp, wordsCore_append_word (' ' :: r) hw, wordsCore_cons]
  simp only [hsp, if_pos rfl]
  simp [wordsSp, hne]

theorem wordsSp_word {w : List Char} (hw : ∀ c ∈ w, isPySpace c = false) (hne : w ≠ []) :
    wordsSp w = [w] := by
  have := wordsCore_append_word ([] : List Char) hw
  rw [List.append_nil] at this
  rw [wordsSp, this]
  simp [wordsCore_nil, hne]

theorem wordsCore_sound (l : List Char) :
    ∀ w ∈ wordsCore l, ∀ c ∈ w, isPySpace c = false ∧ c ∈ l := by
  induction l with
  | nil => simp [wordsCore_nil]
  | cons a l ih =>
      intro w hw c hc
      rw [wordsCore_cons] at hw
      by_cases ha : isPySpace a = true
      · rw [if_pos ha] at hw
        rcases List.mem_cons.mp hw with hw | hw
        · subst hw; simp at hc
        · obtain ⟨h1, h2⟩ := ih w hw c hc
          exact ⟨h1, by simp [h2]⟩
      · rw [if_neg ha] at hw
        obtain ⟨hh, ht, he⟩ : ∃ hh ht, wordsCore l = hh :: ht := by
          rcases hcore : wordsCore l with _ | ⟨hh, ht⟩
          · exact absurd hcore (wordsCore_ne_nil l)
          · exact ⟨hh, ht, rfl⟩
        rw [he] at hw
        simp only [List.headD_cons, List.tail_cons] at hw
        rcases List.mem_cons.mp hw with hw | hw
        · subst hw
          rcases List.mem_cons.mp hc with hc | hc
          · subst hc
            exact ⟨by simpa using ha, by simp⟩
          · obtain ⟨h1, h2⟩ := ih hh (by simp [he]) c hc
            exact ⟨h1, by simp [h2]⟩
        · obtain ⟨h1, h2⟩ := ih w (by simp [he, List.mem_cons, hw]) c hc
          exact ⟨h1, by simp [h2]⟩

theorem wordsSp_sound (l : List Char) :
    ∀ w ∈ wordsSp l, w ≠ [] ∧ ∀ c ∈ w, isPySpace c = false ∧ c ∈ l := by
  intro w hw
  rw [wordsSp, List.mem_filter] at hw
  refine ⟨by simpa using hw.2, fun c hc => wordsCore_sound l w hw.1 c hc⟩

/-! ### `interWords` (`' '.join`) -/

theorem interWords_cons₂ (w w' : List Char) (ws : List (List Char)) :
    interWords (w :: w' :: ws) = w ++ ' ' :: interWords (w' :: ws) := rfl

theorem interWords_mem {c : Char} : ∀ {ws : List (List Char)},
    c ∈ interWords ws → c = ' ' ∨ ∃ w ∈ ws, c ∈ w
  | [], h => by simp [interWords] at h
  | [w], h => by
      simp only [interWords] at h
      exact Or.inr ⟨w, by simp, h⟩
  | w :: w' :: ws, h => by
      rw [interWords_cons₂] at h
      rcases List.mem_append.mp h with h | h
      · exact Or.inr ⟨w, by simp, h⟩
      · rcases List.mem_cons.mp h with h | h
        · exact Or.inl h
        · rcases interWords_mem h with h | ⟨w'', hw'', hc⟩
          · exact Or.inl h
          · exact Or.inr ⟨w'', by simp [hw''], hc⟩

theorem removeArticlesAux_space (b : Bool) (r : List Char) :
    removeArticlesAux b (' ' :: r) = ' ' :: removeArticlesAux false r := by
  cases b
  · rcases r with _ | ⟨x, _ | ⟨y, t⟩⟩ <;> simp [removeArticlesAux, isWordChar]
  · simp [removeArticlesAux, isWordChar]

theorem removeArticlesAux_emit {w : List Char} (rest : List Char)
    (hw : ∀ c ∈ w, isWordChar c = true) :
    removeArticlesAux true (w ++ rest) = w ++ removeArticlesAux true rest := by
  induction w with
  | nil => rfl
  | cons c w ih =>
      have hc : isWordChar c = true := hw c (by simp)
      simp only [List.cons_append, removeArticlesAux, hc, List.append_eq]
      rw [ih (fun x hx => hw x (by simp [hx]))]

theorem removeArticlesAux_article {w : List Char} (rest : List Char)
    (hart : isArticle w = true) (hb : boundaryAfter rest = true) :
    removeArticlesAux false (w ++ rest) = ' ' :: removeArticlesAux true rest := by
  simp only [isArticle, Bool.or_eq_true, decide_eq_true_eq] at hart
  rcases hart with (rfl | rfl) | rfl
  · -- w = "a"
    rcases rest with _ | ⟨x, _ | ⟨y, t⟩⟩
    · rfl
    · have hx : isWordChar x = false := by simpa [boundaryAfter] using hb
      simp [removeArticlesAux, hx]
    · have hx : isWordChar x = false := by simpa [boundaryAfter] using hb
      simp [removeArticlesAux, hx]
  · -- w = "an"
    rcases rest with _ | ⟨x, t⟩
    · rfl
    · have hx : isWordChar x = false := by simpa [boundaryAfter] using hb
      have hn : isWordChar ('n') = true := rfl
      simp [removeArticlesAux, hx, hn]
  · -- w = "the"
    simp [removeArticlesAux, hb]

theorem removeArticlesAux_word {w : List Char} (rest : List Char) (hne : w ≠ [])
    (hw : ∀ c ∈ w, isWordChar c = true) (hart : isArticle w = false)
    (hb : boundaryAfter rest = true) :
    removeArticlesAux false (w ++ rest) = w ++ removeArticlesAux true rest := by
  have hbz : ∀ {z : Char} {zs : List Char}, rest = z :: zs → isWordChar z = false := by
    intro z zs hz
    subst hz
    simpa [boundaryAfter] using hb
  rw [isArticle] at hart
  simp only [Bool.or_eq_false_iff, decide_eq_false_iff_not] at hart
  obtain ⟨⟨hna, hnan⟩, hnthe⟩ := hart
  rcases w with _ | ⟨c, _ | ⟨c₂, _ | ⟨c₃, w₃⟩⟩⟩
  · exact absurd rfl hne
  · -- one-character word: c ≠ 'a'
    have hca : ¬(c = 'a') := fun h => hna (by simp [h])
    have hc : isWordChar c = true := hw c (by simp)
    rcases rest with _ | ⟨x, _ | ⟨y, t⟩⟩
    · simp [removeArticlesAux, hca]
    · have hx := hbz rfl
      simp [removeArticlesAux, hca, hc, hx]
    · have hx := hbz rfl
      have hxh : ¬(x = 'h') := fun h => by rw [h] at hx; exact absurd hx (by decide)
      have hxn : ¬(x = 'n') := fun h => by rw [h] at hx; exact absurd hx (by decide)
      simp [removeArticlesAux, hca, hc, hx, hxh, hxn]
  · -- two-character word: not "an"
    have hc : isWordChar c = true := hw c (by simp)
    have hc₂ : isWordChar c₂ = true := hw c₂ (by simp)
    have hnan' : ¬(c = 'a' ∧ c₂ = 'n') := fun ⟨h1, h2⟩ => hnan (by simp [h1, h2])
    rcases rest with _ | ⟨x, t⟩
    · by_cases hca : c = 'a'
      · have hn : ¬(c₂ = 'n') := fun h => hnan' ⟨hca, h⟩
        simp [removeArticlesAux, hca, hc, hc₂, hn]
      · simp [removeArticlesAux, hca, hc, hc₂]
    · have hx := hbz rfl
      have hxe : ¬(x = 'e') := fun h => by rw [h] at hx; exact absurd hx (by decide)
      have hem : removeArticlesAux true ([c₂] ++ (x :: t)) =
          [c₂] ++ removeArticlesAux true (x :: t) :=
        removeArticlesAux_emit (x :: t) (fun z hz => by simp at hz; rw [hz]; exact hc₂)
      by_cases hca : c = 'a'
      · have hn : ¬(c₂ = 'n') := fun h => hnan' ⟨hca, h⟩
        simp only [List.cons_append, List.singleton_append] at hem ⊢
        simp [removeArticlesAux, hca, hc, hc₂, hx, hn, hxe, hem]
      · simp only [List.cons_append, List.singleton_append] at hem ⊢
        simp [removeArticlesAux, hca, hc, hc₂, hx, hxe, hem]
  · -- three-or-more-character word: not "the"
    have hc : isWordChar c = true := hw c (by simp)
    have hc₂ : isWordChar c₂ = true := hw c₂ (by simp)
    have hc₃ : isWordChar c₃ = true := hw c₃ (by simp)
    have hem : removeArticlesAux true (w₃ ++ rest) = w₃ ++ removeArticlesAux true rest :=
      removeArticlesAux_emit rest (fun z hz => hw z (by simp [hz]))
    by_cases h1 : c = 't'
    · by_cases h2 : c₂ = 'h'
      · by_cases h3 : c₃ = 'e'
        · subst h1; subst h2; subst h3
          have hbd : boundaryAfter (w₃ ++ rest) = false := by
            rcases w₃ with _ | ⟨c₄, w₄⟩
            · exact absurd (show ('t' : Char) :: 'h' :: 'e' :: [] = ['t', 'h', 'e'] from rfl) hnthe
            · have hc₄ : isWordChar c₄ = true := hw c₄ (by simp)
              rw [List.cons_append]
              simp [boundaryAfter, hc₄]
          simp [removeArticlesAux, hc, hc₂, hc₃, hbd, hem]
        · simp [removeArticlesAux, hc, hc₂, hc₃, h1, h2, h3, hem]
      · simp [removeArticlesAux, hc, hc₂, hc₃, h1, h2, hem]
    · simp [removeArticlesAux, hc, hc₂, hc₃, h1, hem]

theorem wordsSp_interWords : ∀ {ws : List (List Char)},
    (∀ w ∈ ws, w ≠ [] ∧ ∀ c ∈ w, isPySpace c = false) → wordsSp (interWords ws) = ws
  | [], _ => rfl
  | [w], h => by
      obtain ⟨hne, hch⟩ := h w (by simp)
      simp only [interWords]
      exact wordsSp_word hch hne
  | w :: w' :: ws, h => by
      obtain ⟨hne, hch⟩ := h w (by simp)
      rw [interWords_cons₂, wordsSp_append_word_cons _ hch hne,
        wordsSp_interWords (fun x hx => h x (by simp at hx ⊢; tauto))]

theorem dropWhile_head_false {p : Char → Bool} :
    ∀ {l : List Char} {x : Char} {xs : List Char},
      l.dropWhile p = x :: xs → p x = false := by
  intro l
  induction l with
  | nil => intro x xs h; simp at h
  | cons a l ih =>
      intro x xs h
      rw [List.dropWhile_cons] at h
      by_cases hp : p a = true
      · rw [if_pos hp] at h
        exact ih h
      · rw [if_neg hp] at h
        injection h with h1 h2
        rw [← h1]
        exact Bool.eq_false_iff.mpr hp

/-- Words of the article-removal output: on text made of spaces and kept
lower-case alphanumerics (which is what `remove_articles` receives inside
`normalize_answer`), removing the regex matches exactly deletes the words
`a`, `an`, `the` from the `split()` decomposition. -/
theorem wordsSp_removeArticlesAux :
    ∀ (n : ℕ) (l : List Char), l.length ≤ n →
      (∀ c ∈ l, c = ' ' ∨ isLowerAN c = true) →
      wordsSp (removeArticlesAux false l) =
        (wordsSp l).filter (fun w => !isArticle w) := by
  intro n
  induction n with
  | zero =>
      intro l hl _
      have : l = [] := List.eq_nil_of_length_eq_zero (Nat.le_zero.mp hl)
      subst this
      rfl
  | succ n ih =>
      intro l hl hclass
      rcases l with _ | ⟨c, r⟩
      · rfl
      rcases hclass c (by simp) with hc | hc
      · -- leading space
        subst hc
        rw [removeArticlesAux_space, wordsSp_cons_space _ (by decide),
          wordsSp_cons_space _ (by decide)]
        exact ih r (by simpa using hl) (fun x hx => hclass x (by simp [hx]))
      · -- leading word character
        have hcsp : isPySpace c = false := isLowerAN_not_space hc
        set w : List Char := (c :: r).takeWhile (fun x => !isPySpace x) with hwdef
        set rest : List Char := (c :: r).dropWhile (fun x => !isPySpace x) with hrestdef
        have hsplit : w ++ rest = c :: r := List.takeWhile_append_dropWhile _ _
        have hwsub : ∀ x ∈ w, x ∈ c :: r := fun x hx => (List.takeWhile_sublist _).subset hx
        have hrsub : ∀ x ∈ rest, x ∈ c :: r := fun x hx => (List.dropWhile_sublist _).subset hx
        have hwchars : ∀ x ∈ w, isPySpace x = false := by
          intro x hx
          have hp := List.mem_takeWhile_imp hx
          simpa using hp
        have hwword : ∀ x ∈ w, isWordChar x = true := by
          intro x hx
          rcases hclass x (hwsub x hx) with rfl | hlan
          · exact absurd (hwchars _ hx) (by decide)
          · exact isLowerAN_isWordChar hlan
        have hwne : w ≠ [] := by
          rw [hwdef, List.takeWhile_cons]
          simp [hcsp]
        have hlen : w.length + rest.length = r.length + 1 := by
          have := congrArg List.length hsplit
          simpa using this
        have hw1 : 1 ≤ w.length := List.length_pos.mpr hwne
        have hrest_shape : rest = [] ∨ ∃ r₂, rest = ' ' :: r₂ := by
          rcases hrt : rest with _ | ⟨x, r₂⟩
          · exact Or.inl rfl
          · right
            refine ⟨r₂, ?_⟩
            have hxp : (fun x => !isPySpace x) x = false :=
              dropWhile_head_false (hrestdef.symm.trans hrt)
            have hxsp : isPySpace x = true := by simpa using hxp
            rcases hclass x (hrsub x (by simp [hrt])) with h' | hlan
            · rw [h']
            · rw [isLowerAN_not_space hlan] at hxsp
              exact absurd hxsp (by simp)
        have hb : boundaryAfter rest = true := by
          rcases hrest_shape with hrt | ⟨r₂, hrt⟩ <;> rw [hrt] <;> rfl
        have hrlen : r.length ≤ n := by simpa using hl
        clear_value w rest
        clear hwdef hrestdef
        rw [← hsplit]
        by_cases hart : isArticle w = true
        · rw [removeArticlesAux_article rest hart hb]
          rcases hrest_shape with hrt | ⟨r₂, hrt⟩
          · subst hrt
            rw [show removeArticlesAux true [] = [] from rfl,
              wordsSp_cons_space [] (by decide), List.append_nil,
              wordsSp_word hwchars hwne]
            simp [wordsSp_nil, List.filter_cons, hart]
          · subst hrt
            rw [removeArticlesAux_space true r₂, wordsSp_cons_space _ (by decide),
              wordsSp_cons_space _ (by decide),
              ih r₂ (by simp only [List.length_cons] at hlen; omega)
                (fun x hx => hclass x (hrsub x (by simp [hx]))),
              wordsSp_append_word_cons r₂ hwchars hwne]
            simp [List.filter_cons, hart]
        · have hartf : isArticle w = false := by simpa using hart
          rw [removeArticlesAux_word rest hwne hwword hartf hb]
          rcases hrest_shape with hrt | ⟨r₂, hrt⟩
          · subst hrt
            rw [show removeArticlesAux true [] = [] from rfl, List.append_nil,
              wordsSp_word hwchars hwne]
            simp [List.filter_cons, hartf]
          · subst hrt
            rw [removeArticlesAux_space true r₂,
              wordsSp_append_word_cons _ hwchars hwne,
              ih r₂ (by simp only [List.length_cons] at hlen; omega)
                (fun x hx => hclass x (hrsub x (by simp [hx]))),
              wordsSp_append_word_cons r₂ hwchars hwne]
            simp [List.filter_cons, hartf]

/-- `normalize_answer` in words: split the punctuation-stripped, lowered
text into words and drop the articles. -/
theorem normalizeChars_eq_interWords (l : List Char) :
    normalizeChars l =
      interWords ((wordsSp (removePunct (lowerChars l))).filter (fun w => !isArticle w)) := by
  have hclass : ∀ c ∈ removePunct (lowerChars l), c = ' ' ∨ isLowerAN c = true := by
    intro c hc
    exact isKept_class (List.of_mem_filter hc)
  rw [normalizeChars, whiteSpaceFix, removeArticles,
    wordsSp_removeArticlesAux (removePunct (lowerChars l)).length _ le_rfl hclass]

theorem normalizeChars_class (l : List Char) :
    ∀ c ∈ normalizeChars l, c = ' ' ∨ isLowerAN c = true := by
  intro c hc
  rw [normalizeChars_eq_interWords] at hc
  rcases interWords_mem hc with rfl | ⟨w, hw, hcw⟩
  · exact Or.inl rfl
  · have hw' : w ∈ wordsSp (removePunct (lowerChars l)) := List.mem_of_mem_filter hw
    have hmem := ((wordsSp_sound _ w hw').2 c hcw).2
    exact isKept_class (List.of_mem_filter hmem)

theorem wordsSp_normalizeChars (l : List Char) :
    wordsSp (normalizeChars l) =
      (wordsSp (removePunct (lowerChars l))).filter (fun w => !isArticle w) := by
  rw [normalizeChars_eq_interWords]
  apply wordsSp_interWords
  intro w hw
  have hw' := List.mem_of_mem_filter hw
  obtain ⟨hne, hch⟩ := wordsSp_sound _ w hw'
  exact ⟨hne, fun c hc => (hch c hc).1⟩

theorem normalizeChars_idem (l : List Char) :
    normalizeChars (normalizeChars l) = normalizeChars l := by
  have hclass := normalizeChars_class l
  have h1 : lowerChars (normalizeChars l) = normalizeChars l := by
    rw [lowerChars]
    have hall : ∀ c ∈ normalizeChars l, Char.toLower c = c := by
      intro c hc
      rcases hclass c hc with rfl | hlan
      · decide
      · exact isLowerAN_toLower hlan
    calc (normalizeChars l).map Char.toLower
        = (normalizeChars l).map id := List.map_congr_left hall
      _ = normalizeChars l := List.map_id _
  have h2 : removePunct (normalizeChars l) = normalizeChars l := by
    rw [removePunct]
    refine List.filter_eq_self.mpr (fun c hc => ?_)
    rcases hclass c hc with rfl | hlan
    · decide
    · exact isLowerAN_isKept hlan
  rw [normalizeChars_eq_interWords (normalizeChars l), h1, h2, wordsSp_normalizeChars l,
    List.filter_filter]
  simp only [Bool.and_self]
  exact (normalizeChars_eq_interWords l).symm

/-- C6: `normalize_answer` is idempotent:
`normalize(normalize(s)) == normalize(s)` for every input string. -/
theorem normalize_answer_idempotent (s : String) :
    normalize_answer (normalize_answer s) = normalize_answer s := by
  show String.mk (normalizeChars (String.mk (normalizeChars s.data)).data) =
    String.mk (normalizeChars s.data)
  exact congrArg String.mk (normalizeChars_idem s.data)

theorem isSubstring_nil (l : List Char) : isSubstring [] l = true := by
  induction l with
  | nil => rfl
  | cons c rest ih => simp [isSubstring, List.isPrefixOf]

/-- C9: if some reference answer normalizes to the empty string (for
example an article such as `"the"`), `calculate_contains` returns 1.0,
because the empty string is a substring of every normalized prediction. -/
theorem calculate_contains_empty_normalized_reference
    (prediction : String) (golden_answers : List String)
    (h : ∃ answer ∈ golden_answers, normalize_answer answer = ("")) :
    calculate_contains prediction golden_answers = 1 := by
  obtain ⟨answer, hmem, hempty⟩ := h
  have hany : golden_answers.any
      (fun answer => isSubstring (normalize_answer answer).data
        (normalize_answer prediction).data) = true := by
    rw [List.any_eq_true]
    refine ⟨answer, hmem, ?_⟩
    rw [hempty]
    exact isSubstring_nil _
  rw [calculate_contains, if_pos hany]

/-- Witness for C9: the reference `"the"` normalizes to the empty string,
so any prediction (here `"hello"`) scores a contains-match of 1.0. -/
theorem calculate_contains_empty_normalized_reference_witness :
    (∃ answer ∈ [("the")], normalize_answer answer = ("")) ∧
      calculate_contains ("hello") [("the")] = 1 :=
  ⟨⟨("the"), by simp, by decide⟩,
    calculate_contains_empty_normalized_reference ("hello") [("the")]
      ⟨("the"), by simp, by decide⟩⟩

/-- C8: an empty batch (zero documents and zero predictions) makes every
aggregate-mean generation scorer fail (`sum([])/len([])` raises
`ZeroDivisionError`) instead of silently producing a NaN value. -/
theorem empty_batch_rejected :
    ExactMatch.calculate_metric { documents := [], predictions := [] } = none ∧
    F1Score.calculate_metric { documents := [], predictions := [] } = none ∧
    PrecisionScore.calculate_metric { documents := [], predictions := [] } = none ∧
    RecallScore.calculate_metric { documents := [], predictions := [] } = none ∧
    ContainsMatch.calculate_metric { documents := [], predictions := [] } = none := by
  refine ⟨rfl, rfl, rfl, rfl, rfl⟩

/-! ### `token_level_scores` characterization (C5) -/

theorem bagInter_nil_left {α : Type} [BEq α] (l : List α) : List.bagInter [] l = [] := by
  cases l <;> rfl

theorem bagInter_nil_right {α : Type} [BEq α] (l : List α) : List.bagInter l [] = [] := by
  cases l <;> rfl

theorem foldl_max_zero : ∀ {l : List ℚ}, (∀ x ∈ l, x = 0) → l.foldl max 0 = 0
  | [], _ => rfl
  | x :: l, h => by
      have hx : x = 0 := h x (by simp)
      subst hx
      rw [List.foldl_cons, max_self]
      exact foldl_max_zero (fun y hy => h y (by simp [hy]))

theorem tokenStep_skip {prediction ground_truth : String} (final_metric : TokenScores)
    (h : num_same_of prediction ground_truth = 0) :
    tokenStep prediction final_metric ground_truth = some final_metric := by
  have h' : ((getTokens prediction).bagInter (getTokens ground_truth)).length = 0 := h
  simp only [tokenStep]
  rw [if_pos h']

theorem tokenStep_value {prediction ground_truth : String} (final_metric : TokenScores)
    (h : num_same_of prediction ground_truth ≠ 0) :
    tokenStep prediction final_metric ground_truth =
      some { f1 := max (specRefF1 prediction ground_truth) final_metric.f1
             precision := max (specRefPrecision prediction ground_truth) final_metric.precision
             «recall» := max (specRefRecall prediction ground_truth) final_metric.«recall» } := by
  have hnsn : ((getTokens prediction).bagInter (getTokens ground_truth)).length ≠ 0 := h
  have hpt : getTokens prediction ≠ [] := by
    intro hempty
    apply h
    rw [num_same_of, hempty, bagInter_nil_left]
    rfl
  have htt : getTokens ground_truth ≠ [] := by
    intro hempty
    apply h
    rw [num_same_of, hempty, bagInter_nil_right]
    rfl
  have hplen : ((getTokens prediction).length : ℚ) ≠ 0 := by
    exact_mod_cast fun hz => hpt (List.length_eq_zero.mp hz)
  have htlen : ((getTokens ground_truth).length : ℚ) ≠ 0 := by
    exact_mod_cast fun hz => htt (List.length_eq_zero.mp hz)
  have hnsq : (0 : ℚ) < (((getTokens prediction).bagInter (getTokens ground_truth)).length : ℚ) := by
    exact_mod_cast Nat.pos_of_ne_zero hnsn
  have hppos : (0 : ℚ) <
      (((getTokens prediction).bagInter (getTokens ground_truth)).length : ℚ) /
        ((getTokens prediction).length : ℚ) :=
    div_pos hnsq (lt_of_le_of_ne (Nat.cast_nonneg _) (Ne.symm hplen))
  have hrpos : (0 : ℚ) <
      (((getTokens prediction).bagInter (getTokens ground_truth)).length : ℚ) /
        ((getTokens ground_truth).length : ℚ) :=
    div_pos hnsq (lt_of_le_of_ne (Nat.cast_nonneg _) (Ne.symm htlen))
  have hsum := ne_of_gt (add_pos hppos hrpos)
  simp only [tokenStep, qdiv]
  rw [if_neg hnsn, if_neg hplen, if_neg htlen]
  simp only [Option.bind_eq_bind, Option.some_bind]
  rw [if_neg hsum]
  simp only [Option.bind_eq_bind, Option.some_bind, Option.some.injEq]
  simp only [specRefF1, specRefPrecision, specRefRecall, num_same_of, if_neg hnsn]

set_option maxHeartbeats 1000000 in
theorem token_level_scores_fold (prediction : String) :
    ∀ (ground_truths : List String) (acc : TokenScores),
      0 ≤ acc.f1 → 0 ≤ acc.precision → 0 ≤ acc.«recall» →
      List.foldlM (tokenStep prediction) acc ground_truths =
      some { f1 := ground_truths.foldl (fun a g => max a (specRefF1 prediction g)) acc.f1
             precision :=
               ground_truths.foldl (fun a g => max a (specRefPrecision prediction g)) acc.precision
             «recall» :=
               ground_truths.foldl (fun a g => max a (specRefRecall prediction g)) acc.«recall» } := by
  intro gts
  induction gts with
  | nil => intro acc _ _ _; rfl
  | cons g gts ih =>
      intro acc h1 h2 h3
      rw [List.foldlM_cons]
      by_cases hns : num_same_of prediction g = 0
      · have hz1 : specRefF1 prediction g = 0 := by rw [specRefF1, if_pos hns]
        have hz2 : specRefPrecision prediction g = 0 := by rw [specRefPrecision, if_pos hns]
        have hz3 : specRefRecall prediction g = 0 := by rw [specRefRecall, if_pos hns]
        rw [tokenStep_skip acc hns]
        show List.foldlM (tokenStep prediction) acc gts = _
        rw [ih acc h1 h2 h3]
        simp [List.foldl_cons, hz1, hz2, hz3, max_eq_left h1, max_eq_left h2, max_eq_left h3]
      · rw [tokenStep_value acc hns]
        show List.foldlM (tokenStep prediction) _ gts = _
        rw [ih _ (le_trans h1 (le_max_right _ _)) (le_trans h2 (le_max_right _ _))
          (le_trans h3 (le_max_right _ _))]
        simp only [List.foldl_cons]
        rw [max_comm _ acc.f1, max_comm _ acc.precision, max_comm _ acc.«recall»]

/-- The closed form of `token_level_scores`: it never fails, and each
component is the maximum of the per-reference spec scores. -/
theorem token_level_scores_eq (prediction : String) (ground_truths : List String) :
    token_level_scores prediction ground_truths =
      some { f1 := (ground_truths.map (specRefF1 prediction)).foldl max 0
             precision := (ground_truths.map (specRefPrecision prediction)).foldl max 0
             «recall» := (ground_truths.map (specRefRecall prediction)).foldl max 0 } := by
  rw [token_level_scores, token_level_scores_fold prediction ground_truths
    { f1 := 0, precision := 0, «recall» := 0 } le_rfl le_rfl le_rfl]
  simp [List.foldl_map]

/-- C5: `token_level_scores` computes, per reference, the count-aware
multiset-intersection scores; a zero-overlap reference contributes 0 and
is skipped; each returned component is the elementwise maximum of the
per-reference spec scores across all references; and an empty prediction
token list never divides by zero and yields the all-zero result. -/
theorem token_level_scores_spec (prediction : String) (ground_truths : List String) :
    token_level_scores prediction ground_truths =
      some { f1 := (ground_truths.map (specRefF1 prediction)).foldl max 0
             precision := (ground_truths.map (specRefPrecision prediction)).foldl max 0
             «recall» := (ground_truths.map (specRefRecall prediction)).foldl max 0 } ∧
    (getTokens prediction = [] →
      token_level_scores prediction ground_truths =
        some { f1 := 0, precision := 0, «recall» := 0 }) := by
  refine ⟨token_level_scores_eq prediction ground_truths, fun hempty => ?_⟩
  rw [token_level_scores_eq]
  have hz : ∀ g : String, num_same_of prediction g = 0 := by
    intro g
    rw [num_same_of, hempty, bagInter_nil_left]
    rfl
  have hcomp : ∀ f : String → ℚ, (∀ g : String, f g = 0) →
      ((ground_truths.map f).foldl max 0 : ℚ) = 0 := by
    intro f hf
    apply foldl_max_zero
    intro x hx
    obtain ⟨g, _, rfl⟩ := List.mem_map.mp hx
    exact hf g
  rw [hcomp _ (fun g => by rw [specRefF1, if_pos (hz g)]),
    hcomp _ (fun g => by rw [specRefPrecision, if_pos (hz g)]),
    hcomp _ (fun g => by rw [specRefRecall, if_pos (hz g)])]

/-- Witness for C5 at a concrete input: the prediction `"the"` normalizes
to the empty token list, and the scores against the reference `"x"` are
all zero. -/
theorem token_level_scores_spec_witness :
    getTokens ("the") = [] ∧
      token_level_scores ("the") [("x")] = some { f1 := 0, precision := 0, «recall» := 0 } :=
  ⟨by decide, (token_level_scores_spec ("the") [("x")]).2 (by decide)⟩

/-! ### The five aggregate scorers (for C1 and C10) -/

theorem mapOption_eq_map {α β : Type} {f : α → Option β} {g : α → β}
    (hf : ∀ x, f x = some (g x)) : ∀ l : List α, mapOption f l = some (l.map g)
  | [] => rfl
  | x :: xs => by
      rw [mapOption, hf x, mapOption_eq_map hf xs]
      rfl

/-- `token_level_scores` never fails, so its `Option.map` by a projection
is always `some`. -/
theorem token_level_scores_proj_some (proj : TokenScores → ℚ) (pg : String × List String) :
    (token_level_scores pg.1 pg.2).map proj =
      some (proj { f1 := ((pg.2).map (specRefF1 pg.1)).foldl max 0
                   precision := ((pg.2).map (specRefPrecision pg.1)).foldl max 0
                   «recall» := ((pg.2).map (specRefRecall pg.1)).foldl max 0 }) := by
  rw [token_level_scores_eq]
  rfl

theorem zip_map_length_zero_iff {β : Type} (data : Data) (f : String × List String → β) :
    ((data.predictions.zip (get_dataset_answer data)).map f).length = 0 ↔
      data.predictions = [] ∨ data.documents = [] := by
  rw [List.length_map, List.length_zip,
    show (get_dataset_answer data).length = data.documents.length by
      simp [get_dataset_answer],
    Nat.min_eq_zero_iff, List.length_eq_zero, List.length_eq_zero]

theorem ExactMatch_calculate_metric_none_iff (data : Data) :
    ExactMatch.calculate_metric data = none ↔
      data.predictions = [] ∨ data.documents = [] := by
  simp only [ExactMatch.calculate_metric]
  constructor
  · intro h
    split at h
    next hc => exact (zip_map_length_zero_iff data _).mp hc
    next => simp at h
  · intro h
    rw [if_pos ((zip_map_length_zero_iff data _).mpr h)]

theorem F1Score_calculate_metric_none_iff (data : Data) :
    F1Score.calculate_metric data = none ↔
      data.predictions = [] ∨ data.documents = [] := by
  simp only [F1Score.calculate_metric]
  rw [mapOption_eq_map (fun pg => token_level_scores_proj_some TokenScores.f1 pg)
    (data.predictions.zip (get_dataset_answer data))]
  simp only [Option.bind_eq_bind, Option.some_bind]
  constructor
  · intro h
    split at h
    next hc => exact (zip_map_length_zero_iff data _).mp hc
    next => simp at h
  · intro h
    rw [if_pos ((zip_map_length_zero_iff data _).mpr h)]

theorem PrecisionScore_calculate_metric_none_iff (data : Data) :
    PrecisionScore.calculate_metric data = none ↔
      data.predictions = [] ∨ data.documents = [] := by
  simp only [PrecisionScore.calculate_metric]
  rw [mapOption_eq_map (fun pg => token_level_scores_proj_some TokenScores.precision pg)
    (data.predictions.zip (get_dataset_answer data))]
  simp only [Option.bind_eq_bind, Option.some_bind]
  constructor
  · intro h
    split at h
    next hc => exact (zip_map_length_zero_iff data _).mp hc
    next => simp at h
  · intro h
    rw [if_pos ((zip_map_length_zero_iff data _).mpr h)]

theorem RecallScore_calculate_metric_none_iff (data : Data) :
    RecallScore.calculate_metric data = none ↔
      data.predictions = [] ∨ data.documents = [] := by
  simp only [RecallScore.calculate_metric]
  rw [mapOption_eq_map (fun pg => token_level_scores_proj_some TokenScores.«recall» pg)
    (data.predictions.zip (get_dataset_answer data))]
  simp only [Option.bind_eq_bind, Option.some_bind]
  constructor
  · intro h
    split at h
    next hc => exact (zip_map_length_zero_iff data _).mp hc
    next => simp at h
  · intro h
    rw [if_pos ((zip_map_length_zero_iff data _).mpr h)]

theorem ContainsMatch_calculate_metric_none_iff (data : Data) :
    ContainsMatch.calculate_metric data = none ↔
      data.predictions = [] ∨ data.documents = [] := by
  simp only [ContainsMatch.calculate_metric]
  constructor
  · intro h
    split at h
    next hc => exact (zip_map_length_zero_iff data _).mp hc
    next => simp at h
  · intro h
    rw [if_pos ((zip_map_length_zero_iff data _).mpr h)]

theorem ExactMatch_calculate_metric_keys {data : Data} {r : List (String × ℚ) × List ℚ}
    (h : ExactMatch.calculate_metric data = some r) :
    r.1.map Prod.fst = [("exact_match")] := by
  simp only [ExactMatch.calculate_metric] at h
  split at h
  next => exact absurd h (by simp)
  next =>
    injection h with h
    subst h
    rfl

theorem F1Score_calculate_metric_keys {data : Data} {r : List (String × ℚ) × List ℚ}
    (h : F1Score.calculate_metric data = some r) :
    r.1.map Prod.fst = [("f1_score")] := by
  simp only [F1Score.calculate_metric] at h
  rw [mapOption_eq_map (fun pg => token_level_scores_proj_some TokenScores.f1 pg)
    (data.predictions.zip (get_dataset_answer data))] at h
  simp only [Option.bind_eq_bind, Option.some_bind] at h
  split at h
  next => exact absurd h (by simp)
  next =>
    injection h with h
    subst h
    rfl

theorem PrecisionScore_calculate_metric_keys {data : Data} {r : List (String × ℚ) × List ℚ}
    (h : PrecisionScore.calculate_metric data = some r) :
    r.1.map Prod.fst = [("precision")] := by
  simp only [PrecisionScore.calculate_metric] at h
  rw [mapOption_eq_map (fun pg => token_level_scores_proj_some TokenScores.precision pg)
    (data.predictions.zip (get_dataset_answer data))] at h
  simp only [Option.bind_eq_bind, Option.some_bind] at h
  split at h
  next => exact absurd h (by simp)
  next =>
    injection h with h
    subst h
    rfl

theorem RecallScore_calculate_metric_keys {data : Data} {r : List (String × ℚ) × List ℚ}
    (h : RecallScore.calculate_metric data = some r) :
    r.1.map Prod.fst = [("recall")] := by
  simp only [RecallScore.calculate_metric] at h
  rw [mapOption_eq_map (fun pg => token_level_scores_proj_some TokenScores.«recall» pg)
    (data.predictions.zip (get_dataset_answer data))] at h
  simp only [Option.bind_eq_bind, Option.some_bind] at h
  split at h
  next => exact absurd h (by simp)
  next =>
    injection h with h
    subst h
    rfl

theorem ContainsMatch_calculate_metric_keys {data : Data} {r : List (String × ℚ) × List ℚ}
    (h : ContainsMatch.calculate_metric data = some r) :
    r.1.map Prod.fst = [("contains_match")] := by
  simp only [ContainsMatch.calculate_metric] at h
  split at h
  next => exact absurd h (by simp)
  next =>
    injection h with h
    subst h
    rfl

/-! ### Concrete facade evaluations

With the single zipped instance `("q", ["z"])` (no token overlap) every
scorer returns the aggregate 0 and the per-instance list `[0]`; these are
the building blocks for the concrete counterexample of C1 and the witness
of C10. -/

theorem ExactMatch_eval_qz {data : Data}
    (hz : data.predictions.zip (get_dataset_answer data) = [(("q"), [("z")])]) :
    ExactMatch.calculate_metric data = some ([(("exact_match"), 0)], [0]) := by
  have hem : calculate_em ("q") [("z")] = 0 := by
    rw [calculate_em, if_neg]
    intro h
    exact absurd h (by decide)
  simp only [ExactMatch.calculate_metric, hz, List.map_cons, List.map_nil, hem]
  norm_num

theorem F1Score_eval_qz {data : Data}
    (hz : data.predictions.zip (get_dataset_answer data) = [(("q"), [("z")])]) :
    F1Score.calculate_metric data = some ([(("f1_score"), 0)], [0]) := by
  have hf : specRefF1 ("q") ("z") = 0 := by rw [specRefF1, if_pos (by decide)]
  simp only [F1Score.calculate_metric, hz]
  rw [mapOption, token_level_scores_proj_some TokenScores.f1 (("q"), [("z")])]
  simp only [Option.bind_eq_bind, Option.some_bind, mapOption]
  simp only [List.map_cons, List.map_nil, hf, List.foldl_cons, List.foldl_nil, max_self]
  norm_num

theorem PrecisionScore_eval_qz {data : Data}
    (hz : data.predictions.zip (get_dataset_answer data) = [(("q"), [("z")])]) :
    PrecisionScore.calculate_metric data = some ([(("precision"), 0)], [0]) := by
  have hf : specRefPrecision ("q") ("z") = 0 := by rw [specRefPrecision, if_pos (by decide)]
  simp only [PrecisionScore.calculate_metric, hz]
  rw [mapOption, token_level_scores_proj_some TokenScores.precision (("q"), [("z")])]
  simp only [Option.bind_eq_bind, Option.some_bind, mapOption]
  simp only [List.map_cons, List.map_nil, hf, List.foldl_cons, List.foldl_nil, max_self]
  norm_num

theorem RecallScore_eval_qz {data : Data}
    (hz : data.predictions.zip (get_dataset_answer data) = [(("q"), [("z")])]) :
    RecallScore.calculate_metric data = some ([(("recall"), 0)], [0]) := by
  have hf : specRefRecall ("q") ("z") = 0 := by rw [specRefRecall, if_pos (by decide)]
  simp only [RecallScore.calculate_metric, hz]
  rw [mapOption, token_level_scores_proj_some TokenScores.«recall» (("q"), [("z")])]
  simp only [Option.bind_eq_bind, Option.some_bind, mapOption]
  simp only [List.map_cons, List.map_nil, hf, List.foldl_cons, List.foldl_nil, max_self]
  norm_num

theorem ContainsMatch_eval_qz {data : Data}
    (hz : data.predictions.zip (get_dataset_answer data) = [(("q"), [("z")])]) :
    ContainsMatch.calculate_metric data = some ([(("contains_match"), 0)], [0]) := by
  have hcm : calculate_contains ("q") [("z")] = 0 := by
    rw [calculate_contains, if_neg]
    intro h
    exact absurd h (by decide)
  simp only [ContainsMatch.calculate_metric, hz, List.map_cons, List.map_nil, hcm]
  norm_num

theorem calculate_generation_metrics_eval_qz (documents : List Document)
    (predictions : List String)
    (hz : predictions.zip (get_dataset_answer ⟨documents, predictions⟩) = [(("q"), [("z")])]) :
    calculate_generation_metrics documents predictions =
      some [(("exact_match"), 0), (("f1_score"), 0), (("precision"), 0), (("recall"), 0),
        (("contains_match"), 0)] := by
  have hz' : (show Data from ⟨documents, predictions⟩).predictions.zip
      (get_dataset_answer ⟨documents, predictions⟩) = [(("q"), [("z")])] := hz
  simp only [calculate_generation_metrics, ExactMatch_eval_qz hz', F1Score_eval_qz hz',
    PrecisionScore_eval_qz hz', RecallScore_eval_qz hz', ContainsMatch_eval_qz hz',
    Option.bind_eq_bind, Option.some_bind]
  rfl

/-- Counterexample to C1 as stated: one document against two predictions
is a count mismatch, yet `calculate_generation_metrics` still produces a
result mapping — `zip` silently truncates to the shorter sequence and no
validation is performed. -/
theorem calculate_generation_metrics_no_validation_counterexample :
    ([({ contexts := [], reorder_contexts := [], answers := ⟨[("z")]⟩ } : Document)].length ≠
      ([("q"), ("y")] : List String).length) ∧
    calculate_generation_metrics
        [{ contexts := [], reorder_contexts := [], answers := ⟨[("z")]⟩ }] [("q"), ("y")] =
      some [(("exact_match"), 0), (("f1_score"), 0), (("precision"), 0), (("recall"), 0),
        (("contains_match"), 0)] :=
  ⟨by decide, calculate_generation_metrics_eval_qz
    [{ contexts := [], reorder_contexts := [], answers := ⟨[("z")]⟩ }] [("q"), ("y")] (by decide)⟩

/-- C1 (amended): `calculate_generation_metrics` performs no
prediction/document count validation.  A count mismatch is silently
truncated by `zip`; the computation aborts (with `ZeroDivisionError` on
the empty per-instance list) exactly when the documents or the
predictions are empty, and otherwise produces a result mapping. -/
theorem calculate_generation_metrics_none_iff (documents : List Document)
    (predictions : List String) :
    calculate_generation_metrics documents predictions = none ↔
      documents = [] ∨ predictions = [] := by
  by_cases h : documents = [] ∨ predictions = []
  · have hem : ExactMatch.calculate_metric ⟨documents, predictions⟩ = none :=
      (ExactMatch_calculate_metric_none_iff _).mpr (by tauto)
    simp only [calculate_generation_metrics, hem, Option.bind_eq_bind, Option.none_bind]
    tauto
  · have hp : ¬((show Data from ⟨documents, predictions⟩).predictions = [] ∨
        (show Data from ⟨documents, predictions⟩).documents = []) := by
      simp only [show (show Data from ⟨documents, predictions⟩).predictions = predictions from rfl,
        show (show Data from ⟨documents, predictions⟩).documents = documents from rfl]
      tauto
    rcases hoEM : ExactMatch.calculate_metric ⟨documents, predictions⟩ with _ | em
    · exact absurd ((ExactMatch_calculate_metric_none_iff _).mp hoEM) hp
    rcases hoF1 : F1Score.calculate_metric ⟨documents, predictions⟩ with _ | f1
    · exact absurd ((F1Score_calculate_metric_none_iff _).mp hoF1) hp
    rcases hoPR : PrecisionScore.calculate_metric ⟨documents, predictions⟩ with _ | pr
    · exact absurd ((PrecisionScore_calculate_metric_none_iff _).mp hoPR) hp
    rcases hoRC : RecallScore.calculate_metric ⟨documents, predictions⟩ with _ | rc
    · exact absurd ((RecallScore_calculate_metric_none_iff _).mp hoRC) hp
    rcases hoCM : ContainsMatch.calculate_metric ⟨documents, predictions⟩ with _ | cm
    · exact absurd ((ContainsMatch_calculate_metric_none_iff _).mp hoCM) hp
    simp only [calculate_generation_metrics, hoEM, hoF1, hoPR, hoRC, hoCM,
      Option.bind_eq_bind, Option.some_bind]
    constructor
    · intro hcontra
      exact absurd hcontra (by simp)
    · intro hcontra
      exact absurd hcontra h

/-- C10: whenever the facade completes, the key set of the result mapping
is exactly `exact_match, f1_score, precision, recall, contains_match` (in
that order), and `bleu_score` is never included. -/
theorem calculate_generation_metrics_key_set (documents : List Document)
    (predictions : List String) (m : List (String × ℚ))
    (h : calculate_generation_metrics documents predictions = some m) :
    m.map Prod.fst =
      [("exact_match"), ("f1_score"), ("precision"), ("recall"), ("contains_match")] ∧
    ("bleu_score") ∉ m.map Prod.fst := by
  simp only [calculate_generation_metrics] at h
  rcases hoEM : ExactMatch.calculate_metric ⟨documents, predictions⟩ with _ | em <;>
    rw [hoEM] at h
  · simp at h
  rcases hoF1 : F1Score.calculate_metric ⟨documents, predictions⟩ with _ | f1 <;>
    rw [hoF1] at h
  · simp at h
  rcases hoPR : PrecisionScore.calculate_metric ⟨documents, predictions⟩ with _ | pr <;>
    rw [hoPR] at h
  · simp at h
  rcases hoRC : RecallScore.calculate_metric ⟨documents, predictions⟩ with _ | rc <;>
    rw [hoRC] at h
  · simp at h
  rcases hoCM : ContainsMatch.calculate_metric ⟨documents, predictions⟩ with _ | cm <;>
    rw [hoCM] at h
  · simp at h
  simp only [Option.bind_eq_bind, Option.some_bind] at h
  injection h with h
  subst h
  rw [List.map_append, List.map_append, List.map_append, List.map_append,
    ExactMatch_calculate_metric_keys hoEM, F1Score_calculate_metric_keys hoF1,
    PrecisionScore_calculate_metric_keys hoPR, RecallScore_calculate_metric_keys hoRC,
    ContainsMatch_calculate_metric_keys hoCM]
  exact ⟨rfl, by decide⟩

/-! ### Top-K retrieval accuracy (C4 and C7) -/

theorem topKLoop_eq (k : ℕ) (use_reordered : Bool) :
    ∀ (documents : List Document) (hits total : ℕ),
      topKLoop k use_reordered documents (hits, total) =
        (hits + documents.countP
          (fun d => ((selectedContexts d use_reordered).take k).any (fun c => c.has_answer)),
         total + documents.length) := by
  intro documents
  induction documents with
  | nil => intro hits total; simp [topKLoop]
  | cons d ds ih =>
      intro hits total
      rw [topKLoop, ih]
      simp only [List.countP_cons, List.length_cons, selectedContexts, Prod.mk.injEq]
      constructor <;> omega

theorem top_k_accuracy_eq (documents : List Document) (k : ℕ) (use_reordered : Bool) :
    top_k_accuracy documents k use_reordered =
      if documents.length = 0 then 0
      else ((documents.countP
          (fun d => ((selectedContexts d use_reordered).take k).any (fun c => c.has_answer)) : ℚ) /
        (documents.length : ℚ)) * 100 := by
  rw [top_k_accuracy, topKLoop_eq]
  simp only [Nat.zero_add]
  by_cases hd : documents.length = 0
  · simp [hd]
  · rw [if_neg hd, if_pos (Nat.pos_of_ne_zero hd)]

/-- C4: `top_k_accuracy` selects the reordered contexts exactly when
`use_reordered` is set and they are non-empty, counts a document as a hit
iff some selected context within the first `k` has `has_answer`, returns
`100·hits/total`, and returns 0 (not an error) on an empty document
list. -/
theorem top_k_accuracy_spec (documents : List Document) (k : ℕ) (use_reordered : Bool) :
    (top_k_accuracy documents k use_reordered =
      if documents = [] then 0
      else 100 * (documents.countP
          (fun d => ((selectedContexts d use_reordered).take k).any (fun c => c.has_answer)) : ℚ) /
        (documents.length : ℚ)) ∧
    (∀ d : Document,
      ((selectedContexts d use_reordered).take k).any (fun c => c.has_answer) = true ↔
        ∃ c ∈ (selectedContexts d use_reordered).take k, c.has_answer = true) ∧
    (∀ d : Document, selectedContexts d use_reordered =
      if use_reordered = true ∧ d.reorder_contexts ≠ []
      then d.reorder_contexts else d.contexts) := by
  refine ⟨?_, fun d => by simp [List.any_eq_true], fun d => ?_⟩
  · rw [top_k_accuracy_eq]
    by_cases hd : documents = []
    · simp [hd]
    · have hlen : documents.length ≠ 0 := fun h => hd (List.length_eq_zero.mp h)
      rw [if_neg hlen, if_neg hd]
      ring
  · rw [selectedContexts]
    by_cases hu : use_reordered = true ∧ d.reorder_contexts ≠ []
    · rw [if_pos hu]
      obtain ⟨hu1, hu2⟩ := hu
      rw [hu1]
      simp [List.isEmpty_iff, hu2]
    · rw [if_neg hu]
      by_cases hb : use_reordered = true
      · have hre : d.reorder_contexts = [] := by
          by_contra hne
          exact hu ⟨hb, hne⟩
        simp [hb, hre]
      · have hb' : use_reordered = false := Bool.eq_false_iff.mpr hb
        simp [hb']

/-- C7: for a fixed document list and `use_reordered` flag,
`top_k_accuracy` is monotonically non-decreasing in `k`. -/
theorem top_k_accuracy_monotone (documents : List Document) (use_reordered : Bool)
    (k k' : ℕ) (hk : k ≤ k') :
    top_k_accuracy documents k use_reordered ≤ top_k_accuracy documents k' use_reordered := by
  rw [top_k_accuracy_eq, top_k_accuracy_eq]
  by_cases hd : documents.length = 0
  · simp [hd]
  · rw [if_neg hd, if_neg hd]
    have hcount : documents.countP
        (fun d => ((selectedContexts d use_reordered).take k).any (fun c => c.has_answer)) ≤
      documents.countP
        (fun d => ((selectedContexts d use_reordered).take k').any (fun c => c.has_answer)) := by
      apply List.countP_mono_left
      intro d _ hp
      simp only [List.any_eq_true] at hp ⊢
      obtain ⟨c, hc, hca⟩ := hp
      refine ⟨c, ?_, hca⟩
      have htk : (selectedContexts d use_reordered).take k =
          ((selectedContexts d use_reordered).take k').take k := by
        rw [List.take_take, min_eq_left hk]
      rw [htk] at hc
      exact List.take_subset _ _ hc
    have hlen : (0 : ℚ) < (documents.length : ℚ) := by
      exact_mod_cast Nat.pos_of_ne_zero hd
    have hdiv : (documents.countP
          (fun d => ((selectedContexts d use_reordered).take k).any (fun c => c.has_answer)) : ℚ) /
        (documents.length : ℚ) ≤
        (documents.countP
          (fun d => ((selectedContexts d use_reordered).take k').any (fun c => c.has_answer)) : ℚ) /
        (documents.length : ℚ) :=
      (div_le_div_iff_of_pos_right hlen).mpr (by exact_mod_cast hcount)
    exact mul_le_mul_of_nonneg_right hdiv (by norm_num)

/-- Witness for C7 at a concrete input: one document whose first context
holds the answer; `k = 0` gives 0 and `k' = 1` gives 100. -/
theorem top_k_accuracy_monotone_witness :
    0 ≤ 1 ∧
      top_k_accuracy [{ contexts := [⟨true⟩], reorder_contexts := [], answers := ⟨[]⟩ }] 0 false ≤
      top_k_accuracy [{ contexts := [⟨true⟩], reorder_contexts := [], answers := ⟨[]⟩ }] 1 false :=
  ⟨by decide,
    top_k_accuracy_monotone [{ contexts := [⟨true⟩], reorder_contexts := [], answers := ⟨[]⟩ }]
      false 0 1 (by decide)⟩

/-! ### BLEU (C2 and C3) -/

theorem bagInter_self {α : Type} [BEq α] [LawfulBEq α] : ∀ l : List α, l.bagInter l = l
  | [] => rfl
  | a :: l => by
      have he : (a :: l).elem a = true := by simp
      show (if (a :: l).elem a = true then a :: l.bagInter ((a :: l).erase a)
            else l.bagInter (a :: l)) = a :: l
      rw [if_pos he, List.erase_cons_head, bagInter_self l]

theorem zip_map_self {α β : Type} (f : α → β) :
    ∀ l : List α, (l.map f).zip l = l.map (fun x => (f x, x))
  | [] => rfl
  | x :: xs => by
      rw [List.map_cons, List.map_cons, List.zip_cons_cons, zip_map_self f xs]

/-- For a single reference equal to the translation, the clipped overlap
is the translation's own n-gram multiset. -/
theorem instanceOverlap_self (t : List String) (max_order : ℕ) :
    instanceOverlap [t] t max_order = get_ngrams t max_order := by
  rw [instanceOverlap, mergedRefNgrams]
  simp only [List.foldl_cons, List.foldl_nil, counterUnion, List.nil_append]
  rw [show (get_ngrams t max_order).diff [] = get_ngrams t max_order from rfl]
  exact bagInter_self _

/-- Every window of order `om + 1` listed by `get_ngrams` has length
`om + 1`. -/
theorem windows_length (seg : List String) (om : ℕ) :
    ∀ g ∈ (List.range (seg.length - om)).map (fun i => (seg.drop i).take (om + 1)),
      g.length = om + 1 := by
  intro g hg
  obtain ⟨i, hi, rfl⟩ := List.mem_map.mp hg
  have hi' : i < seg.length - om := List.mem_range.mp hi
  rw [List.length_take, List.length_drop]
  omega

theorem sum_range_single (f : ℕ → ℕ) :
    ∀ (mo j : ℕ), j < mo → (∀ i, i < mo → i ≠ j → f i = 0) →
      ((List.range mo).map f).sum = f j := by
  intro mo
  induction mo with
  | zero => intro j hj _; omega
  | succ n ih =>
      intro j hj hf
      rw [List.range_succ, List.map_append, List.sum_append]
      simp only [List.map_cons, List.map_nil, List.sum_cons, List.sum_nil]
      by_cases hjn : j = n
      · subst hjn
        have hz : ((List.range j).map f).sum = 0 := by
          apply List.sum_eq_zero
          intro x hx
          obtain ⟨i, hi, rfl⟩ := List.mem_map.mp hx
          exact hf i (by have := List.mem_range.mp hi; omega) (by have := List.mem_range.mp hi; omega)
        rw [hz]
        omega
      · have hj' : j < n := by omega
        rw [ih j hj' (fun i hi hij => hf i (by omega) hij),
          hf n (by omega) (fun h => hjn h.symm)]
        omega

theorem length_filter_flatMap (l : List ℕ) (g : ℕ → List (List String))
    (p : List String → Bool) :
    ((l.flatMap g).filter p).length =
      (l.map (fun a => ((g a).filter p).length)).sum := by
  induction l with
  | nil => rfl
  | cons a l ih =>
      rw [List.flatMap_cons, List.filter_append, List.length_append, ih,
        List.map_cons, List.sum_cons]

/-- Counting the order-`o` n-grams of one segment: there are
`len + 1 - o` of them (0 when the segment is shorter than `o`). -/
theorem get_ngrams_filter_length (seg : List String) (max_order o : ℕ)
    (h1 : 1 ≤ o) (h2 : o ≤ max_order) :
    ((get_ngrams seg max_order).filter (fun g => decide (g.length = o))).length =
      seg.length + 1 - o := by
  rw [get_ngrams, length_filter_flatMap]
  rw [sum_range_single
    (fun om => (((List.range (seg.length - om)).map
      (fun i => (seg.drop i).take (om + 1))).filter
        (fun g => decide (g.length = o))).length)
    max_order (o - 1) (by omega) ?hzero]
  case hzero =>
    intro i hi hne
    rw [List.length_eq_zero]
    apply List.filter_eq_nil_iff.mpr
    intro g hg
    have hlen := windows_length seg i g hg
    simp only [decide_eq_true_eq]
    omega
  · have hall : ∀ g ∈ (List.range (seg.length - (o - 1))).map
        (fun i => (seg.drop i).take (o - 1 + 1)), (fun g => decide (g.length = o)) g = true := by
      intro g hg
      have hlen := windows_length seg (o - 1) g hg
      simp only [decide_eq_true_eq]
      omega
    rw [List.filter_eq_self.mpr hall, List.length_map, List.length_range]
    omega

/-- On a corpus where each translation equals its single reference, the
clipped matches at every order equal the possible matches. -/
theorem self_corpus_matches_eq_possible (max_order o : ℕ) (h1 : 1 ≤ o) (h2 : o ≤ max_order)
    (tc : List (List String)) :
    matchesByOrder max_order (tc.map (fun t => ([t], t))) o =
      possibleByOrder (tc.map (fun t => ([t], t))) o := by
  rw [matchesByOrder, possibleByOrder]
  simp only [List.map_map]
  congr 1
  apply List.map_congr_left
  intro t _
  simp only [Function.comp_apply]
  rw [instanceOverlap_self, get_ngrams_filter_length t max_order o h1 h2]

theorem self_corpus_possible_pos {max_order o : ℕ} (ho : o ≤ max_order)
    {tc : List (List String)} (hex : ∃ t ∈ tc, max_order ≤ t.length) :
    0 < possibleByOrder (tc.map (fun t => ([t], t))) o := by
  obtain ⟨t, htm, hlen⟩ := hex
  rw [possibleByOrder]
  have hmem : t.length + 1 - o ∈
      ((tc.map (fun t => ([t], t))).map (fun rt => rt.2.length + 1 - o)) := by
    simp only [List.map_map]
    exact List.mem_map.mpr ⟨t, htm, rfl⟩
  have hle := List.le_sum_of_mem hmem
  omega

/-- With `smooth = false` the precision list of the self-corpus is all
ones, provided some translation is at least `max_order` tokens long. -/
theorem bleuPrecisions_self_corpus (max_order : ℕ) (tc : List (List String))
    (hex : ∃ t ∈ tc, max_order ≤ t.length) :
    bleuPrecisions max_order false (tc.map (fun t => ([t], t))) =
      List.replicate max_order 1 := by
  apply List.eq_replicate_iff.mpr
  refine ⟨by rw [bleuPrecisions, List.length_map, List.length_range], ?_⟩
  intro b hb
  rw [bleuPrecisions] at hb
  obtain ⟨i, hi, rfl⟩ := List.mem_map.mp hb
  have hio : i < max_order := List.mem_range.mp hi
  have hpos : 0 < possibleByOrder (tc.map (fun t => ([t], t))) (i + 1) :=
    self_corpus_possible_pos (by omega) hex
  simp only [Bool.false_eq_true, if_false]
  rw [if_pos hpos, self_corpus_matches_eq_possible max_order (i + 1) (by omega) (by omega)]
  exact div_self (by exact_mod_cast Nat.pos_iff_ne_zero.mp hpos)

theorem foldl_min_replicate_one : ∀ n : ℕ, (List.replicate n (1 : ℚ)).foldl min 1 = 1
  | 0 => rfl
  | n + 1 => by
      rw [List.replicate_succ, List.foldl_cons, min_self]
      exact foldl_min_replicate_one n

/-- C2 (amended): for a non-empty corpus in which each instance's
translation equals its single reference token-for-token, `compute_bleu`
with `smooth = false` returns exactly 1.0 — provided additionally that
some translation has at least `max_order` tokens; otherwise some order
has zero possible matches, its precision is 0, and BLEU is 0, not 1. -/
theorem compute_bleu_self_corpus (max_order : ℤ) (tc : List (List String))
    (hmo : 0 < max_order) (hex : ∃ t ∈ tc, max_order.toNat ≤ t.length) :
    compute_bleu ⟨max_order, false⟩ (tc.map (fun t => [t])) tc = some 1 := by
  rw [compute_bleu]
  simp only [zip_map_self]
  have hguard : ((tc.map (fun t => ([t], t))).any (fun rt => rt.1.isEmpty)) = false := by
    rw [List.any_eq_false]
    intro rt hrt
    obtain ⟨t, _, rfl⟩ := List.mem_map.mp hrt
    simp
  rw [if_neg (by simp [hguard])]
  rw [bleuPrecisions_self_corpus max_order.toNat tc hex]
  have hn1 : 1 ≤ max_order.toNat := by omega
  obtain ⟨n, hn⟩ : ∃ n, max_order.toNat = n + 1 := ⟨max_order.toNat - 1, by omega⟩
  rw [hn, List.replicate_succ, listMin, foldl_min_replicate_one]
  have hlog : (((1 : ℚ) :: List.replicate n (1 : ℚ)).map
      (fun p => Real.log (Rat.cast p : ℝ))).sum = 0 := by
    rw [← List.replicate_succ, List.map_replicate]
    simp [List.sum_replicate]
  simp [hlog, Real.exp_zero]

/-- Witness for C2 (amended) at a concrete input: one instance with the
four-token translation equal to its single reference gives BLEU exactly
1.0 at the default `max_order = 4`. -/
theorem compute_bleu_self_corpus_witness :
    (0 : ℤ) < 4 ∧
    (∃ t ∈ [[("a"), ("b"), ("c"), ("d")]], (4 : ℤ).toNat ≤ t.length) ∧
    compute_bleu ⟨4, false⟩
        (([[("a"), ("b"), ("c"), ("d")]] : List (List String)).map (fun t => [t]))
        [[("a"), ("b"), ("c"), ("d")]] = some 1 :=
  ⟨by decide, ⟨[("a"), ("b"), ("c"), ("d")], by decide, by decide⟩,
    compute_bleu_self_corpus 4 [[("a"), ("b"), ("c"), ("d")]] (by decide)
      ⟨[("a"), ("b"), ("c"), ("d")], by decide, by decide⟩⟩

/-- Counterexample to C2 as stated: the non-empty corpus with the single
instance `reference = translation = ["a"]` at the default `max_order = 4`
yields BLEU 0.0, not 1.0: orders 2–4 have zero possible matches, so their
precisions are 0 and the geometric-mean branch is never taken. -/
theorem compute_bleu_self_corpus_counterexample :
    ([[("a")]] : List (List String)) ≠ [] ∧
    compute_bleu ⟨4, false⟩ (([[("a")]] : List (List String)).map (fun t => [t])) [[("a")]] =
      some 0 ∧
    (0 : ℝ) ≠ 1 := by
  refine ⟨by decide, ?_, by norm_num⟩
  have hps : bleuPrecisions 4 false
      ((([[("a")]] : List (List String)).map (fun t => [t])).zip [[("a")]]) =
      [1, 0, 0, 0] := by
    rw [show ((([[("a")]] : List (List String)).map (fun t => [t])).zip [[("a")]]) =
      [([[("a")]], [("a")])] from rfl]
    have hm1 : matchesByOrder 4 [([[("a")]], [("a")])] 1 = 1 := by decide
    have hp1 : possibleByOrder [([[("a")]], [("a")])] 1 = 1 := by decide
    have hp2 : possibleByOrder [([[("a")]], [("a")])] 2 = 0 := by decide
    have hp3 : possibleByOrder [([[("a")]], [("a")])] 3 = 0 := by decide
    have hp4 : possibleByOrder [([[("a")]], [("a")])] 4 = 0 := by decide
    rw [bleuPrecisions, show List.range 4 = [0, 1, 2, 3] from rfl]
    simp only [List.map_cons, List.map_nil]
    norm_num [hm1, hp1, hp2, hp3, hp4]
  have hmin : listMin [(1 : ℚ), 0, 0, 0] = some 0 := by
    rw [listMin]
    norm_num [List.foldl_cons, List.foldl_nil, min_def]
  rw [compute_bleu]
  split
  next h => exact absurd h (by decide)
  next h =>
    simp only [show ({ max_order := 4, smooth := false } : BLEUScoreState).max_order.toNat = 4
        from rfl,
      show ({ max_order := 4, smooth := false } : BLEUScoreState).smooth = false from rfl]
    rw [hps, hmin]
    norm_num

/-- C3 (amended): constructing a BLEU scorer with `bleu_max_order ≤ 0`
succeeds — `__init__` performs no validation at all — and the failure is
deferred to computation time: `compute_bleu` then fails on every corpus
(`min(precisions)` is taken over an empty list). -/
theorem BLEUScore_init_nonpositive_defers_failure (config : BLEUConfig)
    (h : (BLEUScore_init config).max_order ≤ 0)
    (reference_corpus : List (List (List String)))
    (translation_corpus : List (List String)) :
    compute_bleu (BLEUScore_init config) reference_corpus translation_corpus = none := by
  have h0 : (BLEUScore_init config).max_order.toNat = 0 := by omega
  rw [compute_bleu]
  split
  next => rfl
  next =>
    rw [h0]
    simp [bleuPrecisions, listMin]

/-- Witness for C3 (amended) at a concrete input: `bleu_max_order = -1`
constructs fine and `compute_bleu` then fails on the empty corpus. -/
theorem BLEUScore_init_nonpositive_defers_failure_witness :
    (BLEUScore_init ⟨some (-1), none⟩).max_order ≤ 0 ∧
      compute_bleu (BLEUScore_init ⟨some (-1), none⟩) [] [] = none :=
  ⟨by decide, BLEUScore_init_nonpositive_defers_failure ⟨some (-1), none⟩ (by decide) [] []⟩

/-- Counterexample to C3 as stated: with `bleu_max_order = 0` the
constructor does not fail — it returns the scorer state `⟨0, false⟩` —
so no configuration error is raised at construction time; the error only
appears once `compute_bleu` is invoked. -/
theorem BLEUScore_init_no_validation_counterexample :
    BLEUScore_init ⟨some 0, none⟩ = ⟨0, false⟩ ∧
      compute_bleu (BLEUScore_init ⟨some 0, none⟩) [] [] = none :=
  ⟨rfl, rfl⟩

/-- Witness for C10 at a concrete input: one document with answer `"z"`
and the prediction `"q"`. -/
theorem calculate_generation_metrics_key_set_witness :
    calculate_generation_metrics
        [{ contexts := [], reorder_contexts := [], answers := ⟨[("z")]⟩ }] [("q")] =
      some [(("exact_match"), 0), (("f1_score"), 0), (("precision"), 0), (("recall"), 0),
        (("contains_match"), 0)] ∧
    ([(("exact_match"), (0 : ℚ)), (("f1_score"), 0), (("precision"), 0), (("recall"), 0),
        (("contains_match"), 0)].map Prod.fst =
      [("exact_match"), ("f1_score"), ("precision"), ("recall"), ("contains_match")] ∧
      ("bleu_score") ∉ [(("exact_match"), (0 : ℚ)), (("f1_score"), 0), (("precision"), 0),
        (("recall"), 0), (("contains_match"), 0)].map Prod.fst) :=
  ⟨calculate_generation_metrics_eval_qz
      [{ contexts := [], reorder_contexts := [], answers := ⟨[("z")]⟩ }] [("q")] (by decide),
    calculate_generation_metrics_key_set _ _ _
      (calculate_generation_metrics_eval_qz
        [{ contexts := [], reorder_contexts := [], answers := ⟨[("z")]⟩ }] [("q")] (by decide))⟩
